import Mathlib

/-!
Shallow embedding of `src/streamlit_app_pdf_split.py` (repository Jimmy-1111/NLP).

The segmenter `split_sentences` (lines 14-87 of the source) is embedded as a
total Lean function on `Option String` (Python's parameter may be `None`).
Strings are processed as `List Char`; every Python regular expression used by
the source is embedded as a decidable Boolean matcher specialised to that
pattern, with the backtracking existentials of bounded repetitions expanded
into finite disjunctions.
-/

namespace PdfSplit

/-- Python `str.isspace` characters: the whitespace stripped by `str.strip()`. -/
def pyIsSpace (c : Char) : Bool :=
  c = ' ' || c = '\t' || c = '\n' || c = '\x0b' || c = '\x0c' || c = '\r'
    || c = '\x1c' || c = '\x1d' || c = '\x1e' || c = '\x1f'
    || c.toNat = 0x85 || c.toNat = 0xa0 || c.toNat = 0x1680
    || (0x2000 ≤ c.toNat && c.toNat ≤ 0x200a)
    || c.toNat = 0x2028 || c.toNat = 0x2029 || c.toNat = 0x202f || c.toNat = 0x205f
    || c = '　'

/-- Python `str.strip()`: drop Unicode whitespace from both ends. -/
def pyStrip (l : List Char) : List Char :=
  ((l.dropWhile pyIsSpace).reverse.dropWhile pyIsSpace).reverse

/-- Line-boundary characters of Python `str.splitlines` (besides `"\r\n"`,
which is treated as a single boundary). -/
def isLineBoundary (c : Char) : Bool :=
  c = '\n' || c = '\r' || c = '\x0b' || c = '\x0c'
    || c = '\x1c' || c = '\x1d' || c = '\x1e'
    || c.toNat = 0x85 || c.toNat = 0x2028 || c.toNat = 0x2029

/-- Collapse each `"\r\n"` pair to a single `'\n'`, so that `splitlines`
can treat every boundary as one character. -/
def normCRLF : List Char → List Char
  | [] => []
  | '\r' :: '\n' :: t => '\n' :: normCRLF t
  | c :: t => c :: normCRLF t

/-- Worker for `pySplitlines`: `acc` holds the current line reversed. -/
def slGo (acc : List Char) : List Char → List (List Char)
  | [] => [acc.reverse]
  | c :: t =>
    if isLineBoundary c then
      acc.reverse :: (match t with | [] => [] | _ :: _ => slGo [] t)
    else slGo (c :: acc) t

/-- Python `str.splitlines()`. -/
def pySplitlines (l : List Char) : List (List Char) :=
  match normCRLF l with
  | [] => []
  | c :: t => slGo [] (c :: t)

/-- The explicit digit class `[0-9０-９]` used in the source's marker patterns. -/
def isDigit09 (c : Char) : Bool :=
  ('0' ≤ c && c ≤ '9') || (0xFF10 ≤ c.toNat && c.toNat ≤ 0xFF19)

/-- Python's `\d` (Unicode decimal digit), modelled by the decimal-digit
ranges occurring in this domain: ASCII `0-9` and full-width `０-９`. -/
def isDigitRe (c : Char) : Bool :=
  ('0' ≤ c && c ≤ '9') || (0xFF10 ≤ c.toNat && c.toNat ≤ 0xFF19)

/-- The terminal punctuation characters `。．！？.!?`, in the order the
source writes them. -/
def punctChars : List Char := ['。', '．', '！', '？', '.', '!', '?']

/-- Membership in the terminal-punctuation class `[。．！？.!?]`. -/
def isPunctT (c : Char) : Bool := punctChars.contains c

/-- `re.search(r'[。．！？.!?]$', s)`: a terminal-punctuation character at the
end of the string, or just before a single trailing newline. -/
def endsPunct (l : List Char) : Bool :=
  match l.reverse with
  | [] => false
  | c :: rest =>
    if c = '\n' then match rest with | c2 :: _ => isPunctT c2 | [] => false
    else isPunctT c

/-- `re.match(r'^[ぁ-んァ-ンa-zＡ-Ｚａ-ｚ一-龯A-Z（(【「『]', s)`: the first
character is in the continuation class. -/
def startsCont (l : List Char) : Bool :=
  match l with
  | [] => false
  | c :: _ =>
    (0x3041 ≤ c.toNat && c.toNat ≤ 0x3093)    -- ぁ-ん
    || (0x30A1 ≤ c.toNat && c.toNat ≤ 0x30F3) -- ァ-ン
    || ('a' ≤ c && c ≤ 'z')
    || (0xFF21 ≤ c.toNat && c.toNat ≤ 0xFF3A) -- Ａ-Ｚ
    || (0xFF41 ≤ c.toNat && c.toNat ≤ 0xFF5A) -- ａ-ｚ
    || (0x4E00 ≤ c.toNat && c.toNat ≤ 0x9FAF) -- 一-龯
    || ('A' ≤ c && c ≤ 'Z')
    || c = '（' || c = '(' || c = '【' || c = '「' || c = '『'

/-- The tail `.+】$` of the heading pattern: at least one non-newline
character, then `】` at the end (or just before a single trailing newline). -/
def dotPlusCloseDollar (mid : List Char) : Bool :=
  match mid.reverse with
  | '\n' :: '】' :: bodyRev => !bodyRev.isEmpty && bodyRev.all (fun c => c ≠ '\n')
  | '】' :: bodyRev => !bodyRev.isEmpty && bodyRev.all (fun c => c ≠ '\n')
  | _ => false

/-- The part `[ 　]*【.+】$` of the heading pattern: skip spaces, then the
bracketed body. -/
def spacesStarBracket : List Char → Bool
  | [] => false
  | c :: t =>
    if c = '【' then dotPlusCloseDollar t
    else (c = ' ' || c = '　') && spacesStarBracket t

/-- `re.match(r'^\d{1,2}[ 　]*【.+】$', line)` (the heading pattern of the
line-merge pass); the `{1,2}` repetition is expanded into a disjunction. -/
def headingMatch : List Char → Bool
  | [] => false
  | c :: rest =>
    isDigitRe c &&
      (spacesStarBracket rest ||
        (match rest with
         | c2 :: rest2 => isDigitRe c2 && spacesStarBracket rest2
         | [] => false))

/-- After the first digit of `[0-9０-９]{1,3}[)）]` : either a closing
parenthesis now, or (at most `k` more times) another digit and retry. -/
def parenAfterDigit : Nat → List Char → Bool
  | k, r =>
    (match r with | c :: _ => c = ')' || c = '）' | [] => false)
    || (match k, r with
        | Nat.succ k', c :: t => isDigit09 c && parenAfterDigit k' t
        | _, _ => false)

/-- `re.match(r'^[(（][0-9０-９]{1,3}[)）]', line)` (the parenthesized
list-marker pattern of the line-merge pass); prefix match, no end anchor. -/
def parenMarkerMatch : List Char → Bool
  | [] => false
  | o :: r =>
    (o = '(' || o = '（') &&
      (match r with
       | d :: t => isDigit09 d && parenAfterDigit 2 t
       | [] => false)

/-- The trailing `.*$` of a pattern: the remainder is all non-newline
characters, optionally followed by one final newline. -/
def remOK (r : List Char) : Bool :=
  r.all (fun c => c ≠ '\n')
  || (match r.reverse with
      | '\n' :: r' => r'.all (fun c => c ≠ '\n')
      | _ => false)

/-- After the first digit of `[0-9０-９]{1,3}[)）]?.*$`: close the match now
(with or without a closing parenthesis), or consume up to `k` more digits. -/
def numTail : Nat → List Char → Bool
  | k, r =>
    remOK r
    || (match r with
        | c :: t => (c = ')' || c = '）') && remOK t
        | [] => false)
    || (match k, r with
        | Nat.succ k', c :: t => isDigit09 c && numTail k' t
        | _, _ => false)

/-- `re.match(r'^[(（]?[0-9０-９]{1,3}[)）]?.*$', line)` (the bare
numbered/parenthesized marker pattern of the punctuation-split pass). -/
def numMarkerMatch : List Char → Bool
  | [] => false
  | c :: rest =>
    if c = '(' || c = '（' then
      match rest with
      | d :: t => isDigit09 d && numTail 2 t
      | [] => false
    else isDigit09 c && numTail 2 rest

/-- State of the line-merge loop: the pending `buffer` and the
`merged_lines` accumulated so far. -/
structure MergeSt where
  buffer : List Char
  acc : List (List Char)
  deriving DecidableEq, Repr

/-- One iteration of the line-merge loop (source lines 27-44), applied to an
already stripped, non-blank line. -/
def mergeStep (st : MergeSt) (line : List Char) : MergeSt :=
  if headingMatch line || parenMarkerMatch line then
    ⟨[], st.acc ++ (if st.buffer = [] then [] else [st.buffer]) ++ [line]⟩
  else if st.buffer = [] then
    ⟨line, st.acc⟩
  else if !endsPunct st.buffer && startsCont line then
    ⟨st.buffer ++ line, st.acc⟩
  else
    ⟨line, st.acc ++ [st.buffer]⟩

/-- The line-merge loop over the raw lines: strip each, skip blanks, feed the
rest to `mergeStep`. -/
def mergeLoop (st : MergeSt) : List (List Char) → MergeSt
  | [] => st
  | l :: t =>
    let l' := pyStrip l
    if l' = [] then mergeLoop st t else mergeLoop (mergeStep st l') t

/-- Final flush of the merge loop: append the pending buffer, if any. -/
def mergeFinish (st : MergeSt) : List (List Char) :=
  st.acc ++ (if st.buffer = [] then [] else [st.buffer])

/-- `merged_lines` (source lines 18-47) for the raw lines of the input. -/
def mergeAll (lines : List (List Char)) : List (List Char) :=
  mergeFinish (mergeLoop ⟨[], []⟩ lines)

/-- `re.split(r'([。．！？.!?])', line)`: the chunks between terminal
punctuation characters, with each punctuation character kept as its own
one-character piece (empty chunks included, as in Python). -/
def reSplitPunct : List Char → List (List Char)
  | [] => [[]]
  | c :: t =>
    if isPunctT c then [] :: [c] :: reSplitPunct t
    else
      match reSplitPunct t with
      | [] => [[c]]
      | s :: ss => (c :: s) :: ss

/-- `needle` is a prefix of `hay`. -/
def pfxMatch : List Char → List Char → Bool
  | [], _ => true
  | _ :: _, [] => false
  | a :: as, b :: bs => a = b && pfxMatch as bs

/-- Python's substring test `needle in hay`: `needle` occurs contiguously in
`hay`. -/
def subMatch (needle : List Char) : List Char → Bool
  | [] => pfxMatch needle []
  | c :: t => pfxMatch needle (c :: t) || subMatch needle t

/-- The loop over `re.split` pieces (source lines 55-65): `sentence` is the
running buffer; a piece that is a substring of `"。．！？.!?"` is appended and,
if the buffer is non-blank, the stripped buffer is emitted and reset. -/
def punctLoop (sentence : List Char) : List (List Char) → List (List Char)
  | [] => if pyStrip sentence = [] then [] else [pyStrip sentence]
  | seg :: t =>
    if subMatch seg punctChars then
      let s' := sentence ++ seg
      if pyStrip s' = [] then punctLoop s' t
      else pyStrip s' :: punctLoop [] t
    else punctLoop (sentence ++ seg) t

/-- The punctuation-split pass for one merged line (source lines 50-65):
a line matching the bare marker pattern is kept verbatim, any other line is
split at terminal punctuation. -/
def punctPassLine (l : List Char) : List (List Char) :=
  if numMarkerMatch l then [l] else punctLoop [] (reSplitPunct l)

/-- `split_by_punctuation` accumulated over all merged lines. -/
def splitByPunctuation (merged : List (List Char)) : List (List Char) :=
  merged.flatMap punctPassLine

/-- An exclusion keyword: a literal substring or one of the two compiled
patterns of `exclude_keywords` (source lines 67-72). -/
inductive Keyword where
  | lit (w : List Char)
  | kabuPat    -- re.compile(r'.+株式会社\(E\d{5}\)')
  | pageNumPat -- re.compile(r'^\d{1,3}/\d{1,3}$')
  deriving DecidableEq

/-- `株式会社(E` followed by five `\d` digits and `)`, at the head of the
list (the literal tail of the company-boilerplate pattern). -/
def kabuAt : List Char → Bool
  | '株' :: '式' :: '会' :: '社' :: '(' :: 'E' :: d1 :: d2 :: d3 :: d4 :: d5 :: ')' :: _ =>
    isDigitRe d1 && isDigitRe d2 && isDigitRe d3 && isDigitRe d4 && isDigitRe d5
  | _ => false

/-- `re.search(r'.+株式会社\(E\d{5}\)', s)`: the literal tail occurs at some
position `j ≥ 1` whose preceding character is not a newline (the shortest
witness for `.+`). -/
def kabuSearch : List Char → Bool
  | [] => false
  | c :: rest => (c ≠ '\n' && kabuAt rest) || kabuSearch rest

/-- `re.search(r'^\d{1,3}/\d{1,3}$', s)` (equivalently `re.match`, since the
pattern is start-anchored): one to three digits, `/`, one to three digits,
optionally a single trailing newline. -/
def pageNumMatch (l : List Char) : Bool :=
  let ds1 := l.takeWhile isDigitRe
  let r1 := l.dropWhile isDigitRe
  (1 ≤ ds1.length && ds1.length ≤ 3) &&
    match r1 with
    | '/' :: r2 =>
      let ds2 := r2.takeWhile isDigitRe
      let r3 := r2.dropWhile isDigitRe
      (1 ≤ ds2.length && ds2.length ≤ 3) && (r3 = [] || r3 = ['\n'])
    | _ => false

/-- The fixed `exclude_keywords` list (source lines 67-72). -/
def excludeKeywords : List Keyword :=
  [.lit "EDINET提出書類".data, .lit "有価証券報告書".data, .kabuPat, .pageNumPat]

/-- `kw in s` for a literal keyword, `kw.search(s)` for a compiled pattern. -/
def matchesKw (kw : Keyword) (s : List Char) : Bool :=
  match kw with
  | .lit w => subMatch w s
  | .kabuPat => kabuSearch s
  | .pageNumPat => pageNumMatch s

/-- The exclusion test of the final filter loop (source lines 74-85). -/
def excludeAny (s : List Char) : Bool :=
  excludeKeywords.any (fun kw => matchesKw kw s)

/-- `split_sentences` (source lines 14-87). The argument is `Option String`
because the Python caller may pass `None`; `if not text` is true exactly for
`None` and the empty string. -/
def split_sentences (text : Option String) : List String :=
  match text with
  | none => []
  | some s =>
    if s.data = [] then []
    else
      let lines := pySplitlines s.data
      let merged := mergeAll lines
      let sbp := splitByPunctuation merged
      (sbp.filter (fun c => !excludeAny c)).map (fun c => String.mk c)

/-- The caller's defensive drop of a leading bare page number (source lines
167-168): if the first sentence matches `^\d{1,3}/\d{1,3}$`, drop it. -/
def postPageDrop (sentences : List String) : List String :=
  match sentences with
  | [] => []
  | s :: rest => if pageNumMatch s.data then rest else s :: rest

/-- A CJK character in the sense of the specification's glossary: Hiragana,
Katakana, or CJK Unified Ideograph. -/
def cjkChar (c : Char) : Bool :=
  (0x3040 ≤ c.toNat && c.toNat ≤ 0x309F)
  || (0x30A0 ≤ c.toNat && c.toNat ≤ 0x30FF)
  || (0x4E00 ≤ c.toNat && c.toNat ≤ 0x9FFF)

end PdfSplit

namespace PdfSplit

/-- C9: when the extracted text is `None` or the empty string,
`split_sentences` returns the empty list (and, being a total function,
raises nothing): a failed page yields zero sentences. -/
theorem claim_C9_empty_input :
    split_sentences none = [] ∧ split_sentences (some "") = [] :=
  ⟨rfl, rfl⟩

/-- C1, counterexample: on the input `"a."` the segmenter returns the
sentence `"a."`, which is shorter than 5 characters and contains no CJK
character, refuting the claim that every returned sentence has length ≥ 5
and at least one CJK character. -/
theorem claim_C1_counterexample :
    ¬ (∀ s ∈ split_sentences (some "a."), 5 ≤ s.length ∧ s.data.any cjkChar = true) := by
  decide

/-! ### Invariants of the pipeline stages -/

/-- The first character, if any, is not Python whitespace. -/
def headNotSpace : List Char → Prop
  | [] => True
  | c :: _ => pyIsSpace c = false

/-- The last character, if any, is not Python whitespace. -/
def lastNotSpace (l : List Char) : Prop := headNotSpace l.reverse

/-- A well-formed intermediate line: non-empty, trimmed at both ends, and
free of newline characters. -/
def Good (l : List Char) : Prop :=
  l ≠ [] ∧ headNotSpace l ∧ lastNotSpace l ∧ ∀ c ∈ l, c ≠ '\n'

theorem headNotSpace_dropWhile (l : List Char) :
    headNotSpace (l.dropWhile pyIsSpace) := by
  induction l with
  | nil => trivial
  | cons c t ih =>
    by_cases h : pyIsSpace c
    · simpa [List.dropWhile, h] using ih
    · simp only [List.dropWhile, h]
      simpa [headNotSpace] using eq_false_of_ne_true h

theorem dropWhile_eq_self_of_head (l : List Char) (h : headNotSpace l) :
    l.dropWhile pyIsSpace = l := by
  cases l with
  | nil => rfl
  | cons c t =>
    simp only [headNotSpace] at h
    simp [List.dropWhile, h]

theorem headNotSpace_of_prefix {a b : List Char} (h : a <+: b)
    (hb : headNotSpace b) : headNotSpace a := by
  obtain ⟨t, rfl⟩ := h
  cases a with
  | nil => trivial
  | cons c r => simpa [headNotSpace] using hb

theorem pyStrip_prefix_dropWhile (l : List Char) :
    pyStrip l <+: l.dropWhile pyIsSpace := by
  unfold pyStrip
  rw [← List.reverse_suffix]
  simpa using
    (List.dropWhile_suffix pyIsSpace :
      ((l.dropWhile pyIsSpace).reverse.dropWhile pyIsSpace) <:+
        (l.dropWhile pyIsSpace).reverse)

theorem headNotSpace_pyStrip (l : List Char) : headNotSpace (pyStrip l) :=
  headNotSpace_of_prefix
    ((pyStrip_prefix_dropWhile l).trans (List.prefix_refl _)) (headNotSpace_dropWhile l)

theorem lastNotSpace_pyStrip (l : List Char) : lastNotSpace (pyStrip l) := by
  unfold lastNotSpace pyStrip
  rw [List.reverse_reverse]
  exact headNotSpace_dropWhile _

theorem pyStrip_eq_self (l : List Char) (h1 : headNotSpace l)
    (h2 : lastNotSpace l) : pyStrip l = l := by
  unfold pyStrip
  rw [dropWhile_eq_self_of_head l h1]
  rw [dropWhile_eq_self_of_head l.reverse h2, List.reverse_reverse]

theorem mem_of_mem_pyStrip {c : Char} {l : List Char} (h : c ∈ pyStrip l) :
    c ∈ l := by
  have h1 : c ∈ l.dropWhile pyIsSpace :=
    (pyStrip_prefix_dropWhile l).subset h
  exact (List.dropWhile_suffix pyIsSpace).subset h1

theorem headNotSpace_append {a b : List Char} (ha : a ≠ [])
    (h : headNotSpace a) : headNotSpace (a ++ b) := by
  cases a with
  | nil => exact absurd rfl ha
  | cons c t => simpa [headNotSpace] using h

theorem lastNotSpace_append {a b : List Char} (hb : b ≠ [])
    (h : lastNotSpace b) : lastNotSpace (a ++ b) := by
  unfold lastNotSpace at *
  rw [List.reverse_append]
  exact headNotSpace_append (by simpa using hb) h

/-- Characters of any line produced by `slGo` are non-boundary, provided the
accumulator holds only non-boundary characters. -/
theorem slGo_no_boundary :
    ∀ (rest acc : List Char), (∀ c ∈ acc, isLineBoundary c = false) →
      ∀ m ∈ slGo acc rest, ∀ c ∈ m, isLineBoundary c = false := by
  intro rest
  induction rest with
  | nil =>
    intro acc hacc m hm c hc
    simp only [slGo, List.mem_singleton] at hm
    subst hm
    exact hacc c (List.mem_reverse.mp hc)
  | cons d t ih =>
    intro acc hacc m hm c hc
    by_cases hd : isLineBoundary d
    · simp only [slGo, hd, if_pos] at hm
      rcases List.mem_cons.mp hm with h1 | h1
      · subst h1; exact hacc c (List.mem_reverse.mp hc)
      · cases t with
        | nil => simp at h1
        | cons x xs => exact ih [] (by simp) m h1 c hc
    · simp only [slGo, hd, if_neg, Bool.false_eq_true, not_false_iff] at hm
      refine ih (d :: acc) ?_ m hm c hc
      intro e he
      rcases List.mem_cons.mp he with h1 | h1
      · subst h1; exact eq_false_of_ne_true hd
      · exact hacc e h1

/-- Every line returned by `pySplitlines` is free of line-boundary
characters (in particular of `'\n'`). -/
theorem pySplitlines_no_boundary {l : List Char} {m : List Char}
    (hm : m ∈ pySplitlines l) : ∀ c ∈ m, isLineBoundary c = false := by
  unfold pySplitlines at hm
  rcases h : normCRLF l with _ | ⟨c, t⟩ <;> rw [h] at hm
  · simp at hm
  · exact slGo_no_boundary (c :: t) [] (by simp) m hm

/-- The merge-state invariant: the pending buffer (when non-empty) and all
accumulated merged lines are `Good`. -/
def InvSt (st : MergeSt) : Prop :=
  (st.buffer = [] ∨ Good st.buffer) ∧ ∀ x ∈ st.acc, Good x

theorem mergeStep_inv {st : MergeSt} {line : List Char} (hst : InvSt st)
    (hline : Good line) : InvSt (mergeStep st line) := by
  obtain ⟨hbuf, hacc⟩ := hst
  unfold mergeStep
  by_cases h1 : (headingMatch line || parenMarkerMatch line) = true
  · rw [if_pos h1]
    refine ⟨Or.inl rfl, ?_⟩
    intro x hx
    rcases List.mem_append.mp hx with hx1 | hx1
    · rcases List.mem_append.mp hx1 with hx2 | hx2
      · exact hacc x hx2
      · by_cases hb : st.buffer = []
        · rw [if_pos hb] at hx2; simp at hx2
        · rw [if_neg hb] at hx2
          rw [List.mem_singleton.mp hx2]
          exact hbuf.resolve_left hb
    · rw [List.mem_singleton.mp hx1]; exact hline
  · rw [if_neg h1]
    by_cases hb : st.buffer = []
    · rw [if_pos hb]; exact ⟨Or.inr hline, hacc⟩
    · rw [if_neg hb]
      by_cases h2 : (!endsPunct st.buffer && startsCont line) = true
      · rw [if_pos h2]
        refine ⟨Or.inr ?_, hacc⟩
        obtain ⟨hne, hh, hl, hnl⟩ := hbuf.resolve_left hb
        obtain ⟨hne', hh', hl', hnl'⟩ := hline
        refine ⟨by simp [hne], headNotSpace_append hne hh,
          lastNotSpace_append hne' hl', ?_⟩
        intro c hc
        rcases List.mem_append.mp hc with h | h
        · exact hnl c h
        · exact hnl' c h
      · rw [if_neg h2]
        refine ⟨Or.inr hline, ?_⟩
        intro x hx
        rcases List.mem_append.mp hx with h | h
        · exact hacc x h
        · rw [List.mem_singleton.mp h]; exact hbuf.resolve_left hb

/-- A stripped, non-empty line whose characters avoid `'\n'` is `Good`. -/
theorem good_pyStrip {l : List Char} (hne : pyStrip l ≠ [])
    (hnl : ∀ c ∈ l, c ≠ '\n') : Good (pyStrip l) :=
  ⟨hne, headNotSpace_pyStrip l, lastNotSpace_pyStrip l,
    fun c hc => hnl c (mem_of_mem_pyStrip hc)⟩

theorem mergeLoop_inv {st : MergeSt} (hst : InvSt st) :
    ∀ lines : List (List Char), (∀ m ∈ lines, ∀ c ∈ m, c ≠ '\n') →
      InvSt (mergeLoop st lines) := by
  intro lines
  induction lines generalizing st with
  | nil => intro _; exact hst
  | cons l t ih =>
    intro hl
    unfold mergeLoop
    by_cases h : pyStrip l = []
    · rw [if_pos h]
      exact ih hst fun m hm => hl m (List.mem_cons_of_mem l hm)
    · rw [if_neg h]
      refine ih (mergeStep_inv hst (good_pyStrip h ?_)) ?_
      · exact hl l (List.mem_cons_self l t)
      · exact fun m hm => hl m (List.mem_cons_of_mem l hm)

/-- Every element of `mergeAll` over newline-free raw lines is `Good`. -/
theorem mergeAll_good {lines : List (List Char)}
    (hl : ∀ m ∈ lines, ∀ c ∈ m, c ≠ '\n') : ∀ x ∈ mergeAll lines, Good x := by
  have h := mergeLoop_inv (show InvSt ⟨[], []⟩ from ⟨Or.inl rfl, by simp⟩) lines hl
  obtain ⟨hbuf, hacc⟩ := h
  intro x hx
  unfold mergeAll mergeFinish at hx
  rcases List.mem_append.mp hx with h1 | h1
  · exact hacc x h1
  · by_cases hb : (mergeLoop ⟨[], []⟩ lines).buffer = []
    · rw [if_pos hb] at h1; simp at h1
    · rw [if_neg hb] at h1
      rw [List.mem_singleton.mp h1]; exact hbuf.resolve_left hb

/-- Characters of the `re.split` pieces all come from the split line. -/
theorem reSplitPunct_mem {l : List Char} :
    ∀ s ∈ reSplitPunct l, ∀ c ∈ s, c ∈ l := by
  induction l with
  | nil => intro s hs c hc; simp [reSplitPunct] at hs; simp [hs] at hc
  | cons d t ih =>
    intro s hs c hc
    unfold reSplitPunct at hs
    by_cases hd : isPunctT d
    · rw [if_pos hd] at hs
      rcases List.mem_cons.mp hs with h1 | h1
      · simp [h1] at hc
      · rcases List.mem_cons.mp h1 with h2 | h2
        · rw [h2] at hc
          rw [List.mem_singleton.mp hc]; exact List.mem_cons_self d t
        · exact List.mem_cons_of_mem d (ih s h2 c hc)
    · rw [if_neg hd] at hs
      rcases hrs : reSplitPunct t with _ | ⟨s0, ss⟩ <;> rw [hrs] at hs
      · rcases List.mem_singleton.mp hs with h1
        rw [h1] at hc
        rw [List.mem_singleton.mp hc]; exact List.mem_cons_self d t
      · rcases List.mem_cons.mp hs with h1 | h1
        · rw [h1] at hc
          rcases List.mem_cons.mp hc with h2 | h2
          · rw [h2]; exact List.mem_cons_self d t
          · refine List.mem_cons_of_mem d (ih s0 ?_ c h2)
            rw [hrs]; exact List.mem_cons_self s0 ss
        · refine List.mem_cons_of_mem d (ih s ?_ c hc)
          rw [hrs]; exact List.mem_cons_of_mem s0 h1

/-- Every sentence emitted by the punctuation loop is the strip of a string
whose characters come from the running buffer or the remaining pieces, and
that strip is non-empty. -/
theorem punctLoop_mem :
    ∀ (segs : List (List Char)) (sentence x : List Char),
      x ∈ punctLoop sentence segs →
      ∃ y, x = pyStrip y ∧ pyStrip y ≠ [] ∧
        ∀ c ∈ y, c ∈ sentence ∨ ∃ s ∈ segs, c ∈ s := by
  intro segs
  induction segs with
  | nil =>
    intro sentence x hx
    unfold punctLoop at hx
    by_cases h : pyStrip sentence = []
    · rw [if_pos h] at hx; simp at hx
    · rw [if_neg h] at hx
      refine ⟨sentence, (List.mem_singleton.mp hx), h, ?_⟩
      intro c hc; exact Or.inl hc
  | cons seg t ih =>
    intro sentence x hx
    unfold punctLoop at hx
    by_cases h1 : subMatch seg punctChars = true
    · rw [if_pos h1] at hx
      by_cases h2 : pyStrip (sentence ++ seg) = []
      · rw [if_pos h2] at hx
        obtain ⟨y, hy1, hy2, hy3⟩ := ih (sentence ++ seg) x hx
        refine ⟨y, hy1, hy2, ?_⟩
        intro c hc
        rcases hy3 c hc with h | h
        · rcases List.mem_append.mp h with h3 | h3
          · exact Or.inl h3
          · exact Or.inr ⟨seg, List.mem_cons_self seg t, h3⟩
        · obtain ⟨s, hs, hcs⟩ := h
          exact Or.inr ⟨s, List.mem_cons_of_mem seg hs, hcs⟩
      · rw [if_neg h2] at hx
        rcases List.mem_cons.mp hx with h3 | h3
        · refine ⟨sentence ++ seg, h3, h2, ?_⟩
          intro c hc
          rcases List.mem_append.mp hc with h4 | h4
          · exact Or.inl h4
          · exact Or.inr ⟨seg, List.mem_cons_self seg t, h4⟩
        · obtain ⟨y, hy1, hy2, hy3⟩ := ih [] x h3
          refine ⟨y, hy1, hy2, ?_⟩
          intro c hc
          rcases hy3 c hc with h | h
          · simp at h
          · obtain ⟨s, hs, hcs⟩ := h
            exact Or.inr ⟨s, List.mem_cons_of_mem seg hs, hcs⟩
    · rw [if_neg h1] at hx
      obtain ⟨y, hy1, hy2, hy3⟩ := ih (sentence ++ seg) x hx
      refine ⟨y, hy1, hy2, ?_⟩
      intro c hc
      rcases hy3 c hc with h | h
      · rcases List.mem_append.mp h with h3 | h3
        · exact Or.inl h3
        · exact Or.inr ⟨seg, List.mem_cons_self seg t, h3⟩
      · obtain ⟨s, hs, hcs⟩ := h
        exact Or.inr ⟨s, List.mem_cons_of_mem seg hs, hcs⟩

/-- Every sentence produced by the punctuation pass on a `Good` line is
`Good`. -/
theorem punctPassLine_good {l x : List Char} (hl : Good l)
    (hx : x ∈ punctPassLine l) : Good x := by
  unfold punctPassLine at hx
  by_cases h : numMarkerMatch l = true
  · rw [if_pos h] at hx
    rw [List.mem_singleton.mp hx]; exact hl
  · rw [if_neg h] at hx
    obtain ⟨y, hy1, hy2, hy3⟩ := punctLoop_mem (reSplitPunct l) [] x hx
    subst hy1
    refine good_pyStrip hy2 ?_
    intro c hc
    rcases hy3 c hc with h1 | h1
    · simp at h1
    · obtain ⟨s, hs, hcs⟩ := h1
      exact hl.2.2.2 c (reSplitPunct_mem s hs c hcs)

/-- Master lemma: every string returned by `split_sentences` is built from a
`Good` character list that passes the exclusion filter. -/
theorem split_sentences_master {text : Option String} {s : String}
    (hs : s ∈ split_sentences text) :
    Good s.data ∧ excludeAny s.data = false := by
  rcases text with _ | str
  · simp [split_sentences] at hs
  · simp only [split_sentences] at hs
    by_cases h0 : str.data = []
    · rw [if_pos h0] at hs; simp at hs
    · rw [if_neg h0] at hs
      obtain ⟨c, hc, rfl⟩ := List.mem_map.mp hs
      obtain ⟨hc1, hc2⟩ := List.mem_filter.mp hc
      obtain ⟨l, hl, hcl⟩ := List.mem_flatMap.mp hc1
      have hlines : ∀ m ∈ pySplitlines str.data, ∀ ch ∈ m, ch ≠ '\n' := by
        intro m hm ch hch
        have := pySplitlines_no_boundary hm ch hch
        intro hne
        rw [hne] at this
        simp [isLineBoundary] at this
      have hgood : Good l := mergeAll_good hlines l hl
      have hgx : Good c := punctPassLine_good hgood hcl
      refine ⟨by simpa using hgx, ?_⟩
      simpa using hc2

/-- C1, amended: every sentence returned by `split_sentences` is at least 1
character long and contains at least one non-whitespace character (the
≥ 5-character and CJK-content guarantees of the original claim do not hold
for this code). -/
theorem claim_C1_amended (text : Option String) (s : String)
    (hs : s ∈ split_sentences text) :
    1 ≤ s.length ∧ s.data.any (fun c => !pyIsSpace c) = true := by
  obtain ⟨⟨hne, hh, _, _⟩, _⟩ := split_sentences_master hs
  rcases hd : s.data with _ | ⟨c, t⟩
  · exact absurd hd hne
  · rw [hd] at hh
    constructor
    · show 1 ≤ s.data.length
      rw [hd]; simp
    · simp only [List.any_cons, Bool.or_eq_true, Bool.not_eq_true']
      exact Or.inl hh

/-- Witness for the amended C1 at a concrete input. -/
theorem claim_C1_amended_witness :
    1 ≤ ("abc。" : String).length ∧
      ("abc。" : String).data.any (fun c => !pyIsSpace c) = true :=
  claim_C1_amended (some "abc。") "abc。" (by decide)

/-- C5: no sentence returned by `split_sentences` contains the literal
`EDINET提出書類` or `有価証券報告書`, none is matched by the
boilerplate-company pattern, and none matches the bare-page-number
pattern. -/
theorem claim_C5_exclusion_filter (text : Option String) (s : String)
    (hs : s ∈ split_sentences text) :
    subMatch "EDINET提出書類".data s.data = false ∧
    subMatch "有価証券報告書".data s.data = false ∧
    kabuSearch s.data = false ∧
    pageNumMatch s.data = false := by
  have h := (split_sentences_master hs).2
  simp only [excludeAny, excludeKeywords, matchesKw, List.any_cons, List.any_nil,
    Bool.or_eq_false_iff] at h
  exact ⟨h.1, h.2.1, h.2.2.1, h.2.2.2.1⟩

/-- Witness for C5 at a concrete input. -/
theorem claim_C5_exclusion_filter_witness :
    subMatch "EDINET提出書類".data ("当社は東京都に本店を置く。" : String).data = false ∧
    subMatch "有価証券報告書".data ("当社は東京都に本店を置く。" : String).data = false ∧
    kabuSearch ("当社は東京都に本店を置く。" : String).data = false ∧
    pageNumMatch ("当社は東京都に本店を置く。" : String).data = false :=
  claim_C5_exclusion_filter (some "当社は東京都に本店を置く。")
    "当社は東京都に本店を置く。" (by decide)

/-- C8: the caller's drop of a leading bare page number is an idempotent
no-op: no output of `split_sentences` matches the page-number pattern, so
`postPageDrop` returns the sentence list unchanged. -/
theorem claim_C8_postdrop_noop (text : Option String) :
    (∀ s ∈ split_sentences text, pageNumMatch s.data = false) ∧
    postPageDrop (split_sentences text) = split_sentences text := by
  have hall : ∀ s ∈ split_sentences text, pageNumMatch s.data = false := by
    intro s hs
    have h := (split_sentences_master hs).2
    simp only [excludeAny, excludeKeywords, matchesKw, List.any_cons, List.any_nil,
      Bool.or_eq_false_iff] at h
    exact h.2.2.2.1
  refine ⟨hall, ?_⟩
  rcases h : split_sentences text with _ | ⟨s, rest⟩
  · rfl
  · have hfalse := hall s (h ▸ List.mem_cons_self s rest)
    show (if pageNumMatch s.data = true then rest else s :: rest) = s :: rest
    rw [hfalse]
    simp

/-- Witness for C8 at a concrete input. -/
theorem claim_C8_postdrop_noop_witness :
    postPageDrop (split_sentences (some "1/5\nほげほげ。")) =
      split_sentences (some "1/5\nほげほげ。") :=
  (claim_C8_postdrop_noop (some "1/5\nほげほげ。")).2

/-- C10: every returned sentence is non-empty, equal to its own
whitespace-trim, and contains no newline character. -/
theorem claim_C10_trimmed (text : Option String) (s : String)
    (hs : s ∈ split_sentences text) :
    s ≠ "" ∧ pyStrip s.data = s.data ∧ '\n' ∉ s.data := by
  obtain ⟨⟨hne, hh, hl, hnl⟩, _⟩ := split_sentences_master hs
  refine ⟨?_, pyStrip_eq_self _ hh hl, fun h => hnl '\n' h rfl⟩
  intro h
  apply hne
  rw [h]

/-- Witness for C10 at a concrete input. -/
theorem claim_C10_trimmed_witness :
    ("テスト。" : String) ≠ "" ∧
      pyStrip ("テスト。" : String).data = ("テスト。" : String).data ∧
      '\n' ∉ ("テスト。" : String).data :=
  claim_C10_trimmed (some "テスト。") "テスト。" (by decide)

/-- C2, counterexample: on the spec's example input the segmenter does not
return the two claimed sentences. The heading pattern requires a leading
digit, so `第一部【企業情報】` is not treated as a heading; the second line
starts with the CJK continuation character `当`, so the two lines are merged
before punctuation splitting. -/
theorem claim_C2_counterexample :
    split_sentences
        (some "第一部【企業情報】\n当社は東京都に本店を置く。EDINET提出書類である。1/5") ≠
      ["第一部【企業情報】", "当社は東京都に本店を置く。"] := by
  decide

/-- C2, amended: on the example input, `split_sentences` returns exactly the
single merged sentence `第一部【企業情報】当社は東京都に本店を置く。`; the
EDINET-literal sentence and the `1/5` footer are dropped by the exclusion
filter, but the heading is concatenated with the following prose because the
line-merge pass only treats digit-led lines as headings. -/
theorem claim_C2_amended :
    split_sentences
        (some "第一部【企業情報】\n当社は東京都に本店を置く。EDINET提出書類である。1/5") =
      ["第一部【企業情報】当社は東京都に本店を置く。"] := by
  decide

/-- C6, counterexample: a pending buffer without terminal punctuation
followed by the line `（１）テスト` — whose first character `（` is in the
claim's continuation class — is *not* appended: the line matches the
parenthesized list-marker pattern, so the merge pass flushes the buffer and
emits the line standalone instead. -/
theorem claim_C6_counterexample :
    ("当社は" : String).data ≠ [] ∧
    endsPunct ("当社は" : String).data = false ∧
    startsCont ("（１）テスト" : String).data = true ∧
    mergeStep ⟨("当社は" : String).data, []⟩ ("（１）テスト" : String).data ≠
      ⟨("当社は" : String).data ++ ("（１）テスト" : String).data, []⟩ := by
  refine ⟨by decide, by decide, by decide, by decide⟩

/-- C6, amended: if additionally the current line matches neither the
heading pattern nor the parenthesized list-marker pattern, then a pending
buffer without terminal punctuation absorbs a line starting with a
continuation character; and on the example `製品の販売状況は` followed by
`好調である。` the whole pipeline yields the single sentence
`製品の販売状況は好調である。`. -/
theorem claim_C6_amended :
    (∀ (buffer line : List Char) (acc : List (List Char)),
      (headingMatch line || parenMarkerMatch line) = false →
      buffer ≠ [] →
      endsPunct buffer = false →
      startsCont line = true →
      mergeStep ⟨buffer, acc⟩ line = ⟨buffer ++ line, acc⟩) ∧
    split_sentences (some "製品の販売状況は\n好調である。") =
      ["製品の販売状況は好調である。"] := by
  constructor
  · intro buffer line acc h1 h2 h3 h4
    unfold mergeStep
    rw [if_neg (by rw [h1]; exact Bool.false_ne_true)]
    rw [if_neg (by simpa using h2)]
    rw [if_pos (by rw [h3, h4]; rfl)]
  · decide

/-- Witness for the amended C6: the example buffer and continuation line are
merged by `mergeStep`. -/
theorem claim_C6_amended_witness :
    mergeStep ⟨("製品の販売状況は" : String).data, []⟩ ("好調である。" : String).data =
      ⟨("製品の販売状況は" : String).data ++ ("好調である。" : String).data, []⟩ :=
  claim_C6_amended.1 _ _ _ (by decide) (by decide) (by decide) (by decide)

/-- Membership in the accumulated `merged_lines` is never lost by later
iterations of the merge loop. -/
theorem mergeStep_acc_mono {x : List Char} {st : MergeSt} (hx : x ∈ st.acc)
    (line : List Char) : x ∈ (mergeStep st line).acc := by
  unfold mergeStep
  by_cases h1 : (headingMatch line || parenMarkerMatch line) = true
  · rw [if_pos h1]
    exact List.mem_append.mpr (Or.inl (List.mem_append.mpr (Or.inl hx)))
  · rw [if_neg h1]
    by_cases hb : st.buffer = []
    · rw [if_pos hb]; exact hx
    · rw [if_neg hb]
      by_cases h2 : (!endsPunct st.buffer && startsCont line) = true
      · rw [if_pos h2]; exact hx
      · rw [if_neg h2]; exact List.mem_append.mpr (Or.inl hx)

theorem mergeLoop_acc_mono {x : List Char} :
    ∀ (rest : List (List Char)) (st : MergeSt), x ∈ st.acc →
      x ∈ (mergeLoop st rest).acc := by
  intro rest
  induction rest with
  | nil => intro st hx; exact hx
  | cons l t ih =>
    intro st hx
    unfold mergeLoop
    by_cases h : pyStrip l = []
    · rw [if_pos h]; exact ih st hx
    · rw [if_neg h]; exact ih _ (mergeStep_acc_mono hx _)

/-- C7: a line matching the heading or parenthesized list-marker pattern
first flushes the pending buffer as its own logical line and is then emitted
standalone: the merge step produces exactly `acc ++ flushed buffer ++ [line]`
with an empty new buffer, and the heading survives unchanged as an element of
the final merged-line list no matter what lines follow. Moreover, the example
heading `5　【経営方針】` after an unterminated buffer is segmented as its own
standalone sentence. -/
theorem claim_C7_heading_standalone :
    (∀ (line buffer : List Char) (acc : List (List Char)),
      (headingMatch line || parenMarkerMatch line) = true →
      mergeStep ⟨buffer, acc⟩ line =
        ⟨[], acc ++ (if buffer = [] then [] else [buffer]) ++ [line]⟩ ∧
      ∀ rest, line ∈ mergeFinish (mergeLoop (mergeStep ⟨buffer, acc⟩ line) rest)) ∧
    split_sentences (some "製品の販売状況は\n5　【経営方針】") =
      ["製品の販売状況は", "5　【経営方針】"] := by
  constructor
  · intro line buffer acc h1
    have hstep : mergeStep ⟨buffer, acc⟩ line =
        ⟨[], acc ++ (if buffer = [] then [] else [buffer]) ++ [line]⟩ := by
      unfold mergeStep
      rw [if_pos h1]
    refine ⟨hstep, ?_⟩
    intro rest
    have hmem : line ∈ (mergeStep ⟨buffer, acc⟩ line).acc := by
      rw [hstep]
      exact List.mem_append.mpr (Or.inr (List.mem_singleton.mpr rfl))
    have := mergeLoop_acc_mono rest _ hmem
    unfold mergeFinish
    exact List.mem_append.mpr (Or.inl this)
  · decide

/-- Witness for C7: the heading `5　【経営方針】` flushes the buffer and is
emitted standalone. -/
theorem claim_C7_heading_standalone_witness :
    mergeStep ⟨("製品の販売状況は" : String).data, []⟩ ("5　【経営方針】" : String).data =
      ⟨[], [("製品の販売状況は" : String).data, ("5　【経営方針】" : String).data]⟩ :=
  ((claim_C7_heading_standalone.1 ("5　【経営方針】" : String).data
      ("製品の販売状況は" : String).data [] (by decide)).1).trans (by decide)

/-! ### C4: the punctuation-split pass versus its specification -/

/-- The punctuation split as the specification words it: scan the logical
line character by character; at each terminal punctuation character the
accumulated segment — with the punctuation mark retained at its end — is
emitted (trimmed) and the accumulator reset; a non-blank trailing remainder
is emitted without punctuation. -/
def specSplitRun (acc : List Char) : List Char → List (List Char)
  | [] => if pyStrip acc = [] then [] else [pyStrip acc]
  | c :: t =>
    if isPunctT c then pyStrip (acc ++ [c]) :: specSplitRun [] t
    else specSplitRun (acc ++ [c]) t

/-- The whole pass as the claim words it: a line matching the bare
numbered/parenthesized marker pattern is kept as a single sentence verbatim;
any other line is split at the terminal punctuation characters. -/
def specPunctPass (l : List Char) : List (List Char) :=
  if numMarkerMatch l then [l] else specSplitRun [] l

theorem pfxMatch_mem : ∀ (n h : List Char), pfxMatch n h = true →
    ∀ c ∈ n, c ∈ h := by
  intro n
  induction n with
  | nil => intro h _ c hc; simp at hc
  | cons a as ih =>
    intro h hp c hc
    cases h with
    | nil => simp [pfxMatch] at hp
    | cons b bs =>
      simp only [pfxMatch, Bool.and_eq_true, decide_eq_true_eq] at hp
      rcases List.mem_cons.mp hc with h1 | h1
      · rw [h1, hp.1]; exact List.mem_cons_self b bs
      · exact List.mem_cons_of_mem b (ih bs hp.2 c h1)

theorem subMatch_mem : ∀ (h n : List Char), subMatch n h = true →
    ∀ c ∈ n, c ∈ h := by
  intro h
  induction h with
  | nil =>
    intro n hs c hc
    cases n with
    | nil => simp at hc
    | cons a as => simp [subMatch, pfxMatch] at hs
  | cons b bs ih =>
    intro n hs c hc
    simp only [subMatch, Bool.or_eq_true] at hs
    rcases hs with h1 | h1
    · exact pfxMatch_mem n (b :: bs) h1 c hc
    · exact List.mem_cons_of_mem b (ih n h1 c hc)

theorem subMatch_nil (h : List Char) : subMatch [] h = true := by
  cases h <;> simp [subMatch, pfxMatch]

theorem subMatch_singleton_of_mem {a : Char} : ∀ h : List Char, a ∈ h →
    subMatch [a] h = true := by
  intro h
  induction h with
  | nil => intro ha; simp at ha
  | cons b bs ih =>
    intro ha
    simp only [subMatch, Bool.or_eq_true]
    rcases List.mem_cons.mp ha with h1 | h1
    · left
      simp [pfxMatch, h1]
    · right
      exact ih h1

theorem mem_punctChars_iff (c : Char) : c ∈ punctChars ↔ isPunctT c = true := by
  simp [isPunctT, punctChars, List.contains]

theorem subMatch_false_of_head_not_punct {c : Char} (s : List Char)
    (hc : isPunctT c = false) : subMatch (c :: s) punctChars = false := by
  cases h : subMatch (c :: s) punctChars with
  | false => rfl
  | true =>
    have h2 : c ∈ punctChars :=
      subMatch_mem punctChars (c :: s) h c (List.mem_cons_self c s)
    rw [(mem_punctChars_iff c).mp h2] at hc
    simp at hc

theorem all_space_of_dropWhile : ∀ l : List Char,
    (∀ c ∈ l.dropWhile pyIsSpace, pyIsSpace c = true) →
    ∀ c ∈ l, pyIsSpace c = true := by
  intro l
  induction l with
  | nil => intro _ c hc; simp at hc
  | cons d t ih =>
    intro h c hc
    by_cases hd : pyIsSpace d
    · rcases List.mem_cons.mp hc with h1 | h1
      · rw [h1]; exact hd
      · refine ih ?_ c h1
        intro e he
        refine h e ?_
        simpa [List.dropWhile, hd] using he
    · rcases List.mem_cons.mp hc with h1 | h1
      · rw [h1]
        refine h d ?_
        simp only [List.dropWhile, if_neg hd]
        simp [hd]
      · refine h c ?_
        simp only [List.dropWhile]
        simp [hd]
        exact Or.inr h1

theorem all_space_of_strip_nil {l : List Char} (h : pyStrip l = []) :
    ∀ c ∈ l, pyIsSpace c = true := by
  unfold pyStrip at h
  rw [List.reverse_eq_nil_iff] at h
  rw [List.dropWhile_eq_nil_iff] at h
  refine all_space_of_dropWhile l ?_
  intro c hc
  exact h c (List.mem_reverse.mpr hc)

/-- The strip of a list containing a non-space character is non-empty. -/
theorem strip_ne_nil_of_mem {l : List Char} {c : Char} (hc : c ∈ l)
    (hns : pyIsSpace c = false) : pyStrip l ≠ [] := by
  intro h
  rw [all_space_of_strip_nil h c hc] at hns
  simp at hns

theorem punct_not_space {p : Char} (hp : isPunctT p = true) :
    pyIsSpace p = false := by
  have h := (mem_punctChars_iff p).mpr hp
  simp only [punctChars, List.mem_cons, List.not_mem_nil, or_false] at h
  rcases h with h | h | h | h | h | h | h <;> (rw [h]; decide)

theorem reSplitPunct_ne_nil : ∀ l : List Char, reSplitPunct l ≠ [] := by
  intro l
  cases l with
  | nil => simp [reSplitPunct]
  | cons c t =>
    unfold reSplitPunct
    by_cases h : isPunctT c = true
    · rw [if_pos h]; simp
    · rw [if_neg h]
      rcases hr : reSplitPunct t with _ | ⟨s, ss⟩ <;> simp

theorem reSplit_cons_nonpunct {c : Char} (hc : isPunctT c = false)
    (t : List Char) :
    ∃ s ss, reSplitPunct t = s :: ss ∧ reSplitPunct (c :: t) = (c :: s) :: ss := by
  rcases hr : reSplitPunct t with _ | ⟨s, ss⟩
  · exact absurd hr (reSplitPunct_ne_nil t)
  · refine ⟨s, ss, rfl, ?_⟩
    unfold reSplitPunct
    rw [if_neg (by simp [hc]), hr]

theorem punctLoop_nil_segs (a : List Char) :
    punctLoop a [] = if pyStrip a = [] then [] else [pyStrip a] := rfl

theorem punctLoop_empty_seg {a : List Char} (R : List (List Char))
    (h : pyStrip a = []) : punctLoop a ([] :: R) = punctLoop a R := by
  simp only [punctLoop, subMatch_nil, if_true, List.append_nil]
  rw [if_pos h]

theorem punctLoop_punct_seg {p : Char} (hp : isPunctT p = true)
    (a : List Char) (R : List (List Char)) :
    punctLoop a ([p] :: R) = pyStrip (a ++ [p]) :: punctLoop [] R := by
  have hsub : subMatch [p] punctChars = true :=
    subMatch_singleton_of_mem punctChars ((mem_punctChars_iff p).mpr hp)
  have hnn : pyStrip (a ++ [p]) ≠ [] :=
    strip_ne_nil_of_mem
      (List.mem_append.mpr (Or.inr (List.mem_singleton.mpr rfl)))
      (punct_not_space hp)
  simp only [punctLoop, hsub, if_true]
  rw [if_neg hnn]

theorem punctLoop_chunk_seg {c : Char} (hc : isPunctT c = false)
    (s a : List Char) (R : List (List Char)) :
    punctLoop a ((c :: s) :: R) = punctLoop (a ++ (c :: s)) R := by
  have hsub := subMatch_false_of_head_not_punct s hc
  simp only [punctLoop]
  rw [if_neg (by simp [hsub])]

theorem punctLoop_base (acc : List Char) :
    punctLoop acc (reSplitPunct []) = specSplitRun acc [] := by
  show punctLoop acc [[]] = _
  by_cases h : pyStrip acc = []
  · rw [punctLoop_empty_seg [] h, punctLoop_nil_segs, if_pos h]
    simp [specSplitRun, h]
  · simp only [punctLoop, subMatch_nil, if_true, List.append_nil]
    rw [if_neg h]
    rw [if_pos (show pyStrip ([] : List Char) = [] from rfl)]
    simp [specSplitRun, h]

/-- The code's punctuation loop over `re.split` pieces computes the
specification's direct character scan, for any accumulator that is blank
whenever the remaining line starts with a punctuation character. -/
theorem punctLoop_eq_spec :
    ∀ (n : Nat) (l : List Char), l.length ≤ n → ∀ acc : List Char,
      (∀ c t, l = c :: t → isPunctT c = true → pyStrip acc = []) →
      punctLoop acc (reSplitPunct l) = specSplitRun acc l := by
  intro n
  induction n with
  | zero =>
    intro l hl acc _
    have h0 : l = [] := List.length_eq_zero.mp (Nat.le_zero.mp hl)
    subst h0
    exact punctLoop_base acc
  | succ n ih =>
    intro l hl acc hpre
    cases l with
    | nil => exact punctLoop_base acc
    | cons c t =>
      by_cases hc : isPunctT c = true
      · -- head of the line is a punctuation character
        have hacc : pyStrip acc = [] := hpre c t rfl hc
        have hsplit : reSplitPunct (c :: t) = [] :: [c] :: reSplitPunct t := by
          simp only [reSplitPunct]; rw [if_pos hc]
        rw [hsplit, punctLoop_empty_seg _ hacc, punctLoop_punct_seg hc]
        have hIH : punctLoop [] (reSplitPunct t) = specSplitRun [] t := by
          refine ih t ?_ [] ?_
          · have := hl; simp only [List.length_cons] at this; omega
          · intro c' t' _ _; rfl
        rw [hIH]
        show _ = specSplitRun acc (c :: t)
        simp only [specSplitRun]
        rw [if_pos hc]
      · have hcf : isPunctT c = false := by
          revert hc; cases isPunctT c <;> simp
        obtain ⟨s, ss, h1, h2⟩ := reSplit_cons_nonpunct hcf t
        rw [h2, punctLoop_chunk_seg hcf]
        have hrhs : specSplitRun acc (c :: t) = specSplitRun (acc ++ [c]) t := by
          simp only [specSplitRun]; rw [if_neg (by simp [hcf])]
        rw [hrhs]
        cases t with
        | nil =>
          have h1' : [([] : List Char)] = s :: ss := by rw [← h1]; rfl
          have hs : ([] : List Char) = s := List.head_eq_of_cons_eq h1'
          have hss : ([] : List (List Char)) = ss := List.tail_eq_of_cons_eq h1'
          subst hs; subst hss
          rfl
        | cons d t'' =>
          by_cases hd : isPunctT d = true
          · have hsplit2 : reSplitPunct (d :: t'') = [] :: [d] :: reSplitPunct t'' := by
              simp only [reSplitPunct]; rw [if_pos hd]
            rw [hsplit2] at h1
            have hs : ([] : List Char) = s := List.head_eq_of_cons_eq h1
            have hss : [d] :: reSplitPunct t'' = ss := List.tail_eq_of_cons_eq h1
            subst hs
            rw [← hss]
            rw [punctLoop_punct_seg hd]
            have hIH : punctLoop [] (reSplitPunct t'') = specSplitRun [] t'' := by
              refine ih t'' ?_ [] ?_
              · have := hl; simp only [List.length_cons] at this; omega
              · intro c' t' _ _; rfl
            rw [hIH]
            show _ = specSplitRun (acc ++ [c]) (d :: t'')
            simp only [specSplitRun]
            rw [if_pos hd]
          · have hdf : isPunctT d = false := by
              revert hd; cases isPunctT d <;> simp
            obtain ⟨s₂, ss₂, h3, h4⟩ := reSplit_cons_nonpunct hdf t''
            rw [h4] at h1
            have hs : d :: s₂ = s := List.head_eq_of_cons_eq h1
            have hss : ss₂ = ss := List.tail_eq_of_cons_eq h1
            subst hss
            rw [← hs]
            have hIH : punctLoop (acc ++ [c]) (reSplitPunct (d :: t'')) =
                specSplitRun (acc ++ [c]) (d :: t'') := by
              refine ih (d :: t'') ?_ (acc ++ [c]) ?_
              · have := hl; simp only [List.length_cons] at this ⊢; omega
              · intro c' t' he hp
                have hcd : c' = d := (List.head_eq_of_cons_eq he).symm
                rw [hcd] at hp
                rw [hp] at hdf
                simp at hdf
            rw [← hIH, h4, punctLoop_chunk_seg hdf]
            rw [List.append_assoc]
            rfl

end PdfSplit

namespace PdfSplit

/-- C4: the punctuation-split pass behaves exactly as specified: a logical
line matching the bare numbered/parenthesized marker pattern is kept as a
single sentence verbatim, and any other line is split at each occurrence of
the terminal punctuation characters `。．！？.!?`, each punctuation mark
retained at the end of its (trimmed) preceding segment, with a non-blank
trailing remainder emitted without punctuation. -/
theorem claim_C4_punct_pass (l : List Char) :
    punctPassLine l = specPunctPass l := by
  unfold punctPassLine specPunctPass
  by_cases h : numMarkerMatch l = true
  · rw [if_pos h, if_pos h]
  · rw [if_neg h, if_neg h]
    exact punctLoop_eq_spec l.length l le_rfl [] (fun c t _ _ => rfl)

/-! ### C3: the layered extraction selector (modelled from the spec) -/

/-- Modelled from the spec: the ordered extraction-strategy enumeration of
the layered extraction selector (spec §3, §4.1), which is not part of
`src/streamlit_app_pdf_split.py` (the file's `main` only calls the native
extractor and, separately, image OCR). -/
inductive Strategy where
  | nativeLayout
  | externalCLI
  | ocr
  deriving DecidableEq, Repr

/-- Modelled from the spec: the fixed cheap-to-expensive strategy order. -/
def strategyOrder : List Strategy := [.nativeLayout, .externalCLI, .ocr]

/-- Modelled from the spec: the CJK-density acceptance test — count of
Hiragana/Katakana/CJK-ideograph characters divided by total length is at
least the fixed threshold 0.10 (stated integrally as `10·cjk ≥ len`); empty
output never passes. -/
def acceptanceTest (t : List Char) : Bool :=
  !t.isEmpty && decide (t.length ≤ 10 * t.countP cjkChar)

/-- Result of the extraction selector: the chosen text and the list of
strategies attempted, in order. -/
structure ExtractResult where
  text : List Char
  attempted : List Strategy
  deriving DecidableEq, Repr

/-- Modelled from the spec: try the remaining strategies in order, returning
the first output passing the acceptance test; `best` remembers the most
recently computed non-empty output as the fallback. -/
def extractGo (outs : Strategy → List Char) (best : List Char)
    (attempted : List Strategy) : List Strategy → ExtractResult
  | [] => ⟨best, attempted⟩
  | s :: rest =>
    let t := outs s
    if acceptanceTest t then ⟨t, attempted ++ [s]⟩
    else extractGo outs (if t.isEmpty then best else t) (attempted ++ [s]) rest

/-- Modelled from the spec: the layered extraction selector (spec §4.1) —
try `NativeLayout`, `ExternalCLI`, `OCR` in order, stop at the first output
passing the acceptance test, otherwise fall back to the last attempted
non-empty output or the empty string. -/
def extract (outs : Strategy → List Char) : ExtractResult :=
  extractGo outs [] [] strategyOrder

/-- The extraction selector, computed by cases on the acceptance tests
and, in the all-fail case, the non-emptiness of the three outputs. -/
theorem extract_eq (outs : Strategy → List Char) :
    extract outs =
      if acceptanceTest (outs .nativeLayout) then
        ⟨outs .nativeLayout, [.nativeLayout]⟩
      else if acceptanceTest (outs .externalCLI) then
        ⟨outs .externalCLI, [.nativeLayout, .externalCLI]⟩
      else if acceptanceTest (outs .ocr) then
        ⟨outs .ocr, [.nativeLayout, .externalCLI, .ocr]⟩
      else
        ⟨if !(outs .ocr).isEmpty then outs .ocr
          else if !(outs .externalCLI).isEmpty then outs .externalCLI
          else if !(outs .nativeLayout).isEmpty then outs .nativeLayout
          else [],
         [.nativeLayout, .externalCLI, .ocr]⟩ := by
  unfold extract strategyOrder
  by_cases h1 : acceptanceTest (outs .nativeLayout) = true
  · simp only [extractGo, h1, if_true, List.nil_append]
  · have h1f : acceptanceTest (outs .nativeLayout) = false := by
      revert h1; cases acceptanceTest (outs .nativeLayout) <;> simp
    by_cases h2 : acceptanceTest (outs .externalCLI) = true
    · simp only [extractGo, h1f, h2, Bool.false_eq_true, if_false, if_true,
        List.nil_append, List.singleton_append]
    · have h2f : acceptanceTest (outs .externalCLI) = false := by
        revert h2; cases acceptanceTest (outs .externalCLI) <;> simp
      by_cases h3 : acceptanceTest (outs .ocr) = true
      · simp only [extractGo, h1f, h2f, h3, Bool.false_eq_true, if_false,
          if_true, List.nil_append, List.singleton_append, List.cons_append]
      · have h3f : acceptanceTest (outs .ocr) = false := by
          revert h3; cases acceptanceTest (outs .ocr) <;> simp
        simp only [extractGo, h1f, h2f, h3f, Bool.false_eq_true, if_false,
          List.nil_append, List.singleton_append, List.cons_append]
        by_cases e3 : (outs Strategy.ocr).isEmpty <;>
          by_cases e2 : (outs Strategy.externalCLI).isEmpty <;>
            by_cases e1 : (outs Strategy.nativeLayout).isEmpty <;>
              simp [e1, e2, e3]

/-- C3: the extraction selector attempts the strategies strictly in the
order NativeLayout, ExternalCLI, OCR and each at most once (the attempted
list is always a prefix of that order, without duplicates); ExternalCLI is
never attempted when NativeLayout's output passes the 0.10 CJK-density
test; OCR is never attempted when ExternalCLI's output passes it; and when
every output fails the test, the selector returns the last attempted
non-empty output (or the empty string), never raising. -/
theorem claim_C3_extraction_order (outs : Strategy → List Char) :
    ((extract outs).attempted <+: strategyOrder ∧ (extract outs).attempted.Nodup) ∧
    (acceptanceTest (outs .nativeLayout) = true →
      Strategy.externalCLI ∉ (extract outs).attempted) ∧
    (acceptanceTest (outs .externalCLI) = true →
      Strategy.ocr ∉ (extract outs).attempted) ∧
    (acceptanceTest (outs .nativeLayout) = false →
      acceptanceTest (outs .externalCLI) = false →
      acceptanceTest (outs .ocr) = false →
      (extract outs).text =
        (if !(outs .ocr).isEmpty then outs .ocr
         else if !(outs .externalCLI).isEmpty then outs .externalCLI
         else if !(outs .nativeLayout).isEmpty then outs .nativeLayout
         else [])) := by
  rw [extract_eq outs]
  by_cases h1 : acceptanceTest (outs .nativeLayout) = true
  · rw [if_pos h1]
    refine ⟨⟨⟨[Strategy.externalCLI, Strategy.ocr], rfl⟩,
      show ([Strategy.nativeLayout] : List Strategy).Nodup by decide⟩, ?_, ?_, ?_⟩
    · intro _
      show Strategy.externalCLI ∉ [Strategy.nativeLayout]
      decide
    · intro _
      show Strategy.ocr ∉ [Strategy.nativeLayout]
      decide
    · intro hn _ _
      rw [h1] at hn; simp at hn
  · rw [if_neg h1]
    by_cases h2 : acceptanceTest (outs .externalCLI) = true
    · rw [if_pos h2]
      refine ⟨⟨⟨[Strategy.ocr], rfl⟩,
        show ([Strategy.nativeLayout, Strategy.externalCLI] : List Strategy).Nodup
          by decide⟩, ?_, ?_, ?_⟩
      · intro hn
        rw [hn] at h1; simp at h1
      · intro _
        show Strategy.ocr ∉ [Strategy.nativeLayout, Strategy.externalCLI]
        decide
      · intro _ hc _
        rw [h2] at hc; simp at hc
    · rw [if_neg h2]
      by_cases h3 : acceptanceTest (outs .ocr) = true
      · rw [if_pos h3]
        refine ⟨⟨⟨[], List.append_nil _⟩,
          show ([Strategy.nativeLayout, Strategy.externalCLI, Strategy.ocr] :
            List Strategy).Nodup by decide⟩, ?_, ?_, ?_⟩
        · intro hn; rw [hn] at h1; simp at h1
        · intro hc; rw [hc] at h2; simp at h2
        · intro _ _ ho
          rw [h3] at ho; simp at ho
      · rw [if_neg h3]
        refine ⟨⟨⟨[], List.append_nil _⟩,
          show ([Strategy.nativeLayout, Strategy.externalCLI, Strategy.ocr] :
            List Strategy).Nodup by decide⟩, ?_, ?_, ?_⟩
        · intro hn; rw [hn] at h1; simp at h1
        · intro hc; rw [hc] at h2; simp at h2
        · intro _ _ _; rfl

/-- Witness for C3 at concrete strategy outputs: with a native output that
passes the acceptance test, only NativeLayout is attempted. -/
theorem claim_C3_extraction_order_witness :
    Strategy.externalCLI ∉
      (extract (fun _ => ("当社は東京都に本店を置く。" : String).data)).attempted :=
  (claim_C3_extraction_order
      (fun _ => ("当社は東京都に本店を置く。" : String).data)).2.1 (by decide)

end PdfSplit
